import Mathlib

/-!
Verification of the JTAG vector segmentation adapter in
`src/adapters/pyftdi.py` (class `PyFTDIAdapter`).

Bit vectors (the `bitstring` objects of the source) are embedded as
`List Bool`, index 0 being the first bit transmitted.  Python slicing
`bs[lo:hi]` becomes `slice`, and `bitstring.find` of a one-bit pattern
becomes `findBit` / `findBitIn` below.  All indexing and `find` calls
performed by `send_data` stay in range whenever `len(tms) == len(tdi)`
(the protocol invariant), and also in the mismatched-length run analysed
for claim C3 (all-zero TMS), so total functions with the usual clamping
semantics of `List.take`/`List.drop`/`List.getD` coincide with the source
on every run we reason about.
-/

namespace PyFTDI

/-- Python slice `bs[lo:hi]` (clamped at the end of the list, like Python). -/
def slice (bs : List Bool) (lo hi : Nat) : List Bool :=
  (bs.drop lo).take (hi - lo)

/-- Index of the first occurrence of bit `b` in `l` (position in `l`). -/
def findBitAux (b : Bool) : List Bool → Option Nat
  | [] => none
  | x :: xs => if x = b then some 0 else (findBitAux b xs).map (· + 1)

/-- Model of `bs.find(b, start)` of `bitstring`: first index `p` with `start ≤ p`
and `bs[p] = b`. -/
def findBit (bs : List Bool) (b : Bool) (start : Nat) : Option Nat :=
  (findBitAux b (bs.drop start)).map (start + ·)

/-- Model of `bs.find(b, start, stop)` of `bitstring`: first index `p` in
`[start, stop)` with `bs[p] = b`. -/
def findBitIn (bs : List Bool) (b : Bool) (start stop : Nat) : Option Nat :=
  (findBitAux b (slice bs start stop)).map (start + ·)

/-- One hardware command segment emitted by `send_data`
(src/adapters/pyftdi.py:168-266).  `lo`/`hi` record the half-open index
range `[head, tail)` of the input vectors that the segment covers (the
values of the cursor at emission time); the remaining fields are exactly
the arguments passed to the device:
`tdiRun lo hi bits` ↦ `write_tdi_read_tdo(tdi_stream[lo:hi])`,
`tmsRun lo hi bits v` ↦ `write_tms_tdi_read_tdo(tms_stream[lo:hi], tdi_stream[hi-1])`. -/
inductive Segment where
  | tdiRun (lo hi : Nat) (tdi_bits : List Bool)
  | tmsRun (lo hi : Nat) (tms_bits : List Bool) (tdi_value : Bool)
deriving DecidableEq, Repr

def Segment.lo : Segment → Nat
  | .tdiRun lo _ _ => lo
  | .tmsRun lo _ _ _ => lo

def Segment.hi : Segment → Nat
  | .tdiRun _ hi _ => hi
  | .tmsRun _ hi _ _ => hi

/-- Number of bits written to the device for this segment. -/
def Segment.bitLen : Segment → Nat
  | .tdiRun _ _ bits => bits.length
  | .tmsRun _ _ bits _ => bits.length

def rangeOf (s : Segment) : Nat × Nat := (s.lo, s.hi)

def ranges (segs : List Segment) : List (Nat × Nat) := segs.map rangeOf

/-- The `tms1Pos` of the source (src/adapters/pyftdi.py:171-178): position of
the next bit at or after `head` where TMS is 1, or the end of the stream. -/
def tms1PosOf (tms : List Bool) (head : Nat) : Nat :=
  match findBit tms true head with
  | some p => p
  | none => tms.length

/-- The `tms0Pos` of the source (src/adapters/pyftdi.py:201-210): one past the
next bit at or after `start` where TMS is 0 (the run keeps the bit that
returns TMS to 0), or the end of the stream when TMS never returns to 0. -/
def tms0PosOf (tms : List Bool) (start : Nat) : Nat :=
  match findBit tms false start with
  | some p => p + 1
  | none => tms.length

/-- The `tail` of the source inner loop (src/adapters/pyftdi.py:222-244):
at most 7 TMS bits per command, shrunk further to end just before the
first index in the window where TDI differs from `tdi[head]`. -/
def tmsTail (tms0Pos head : Nat) (tdi : List Bool) : Nat :=
  let tail0 := min tms0Pos (head + 7)
  match findBitIn tdi (!(tdi.getD head false)) head tail0 with
  | some p => p
  | none => tail0

/-- The inner `while (tms0Pos > head)` loop of `send_data`
(src/adapters/pyftdi.py:222-263), recorded as the list of emitted
segments.  The loop advances `head` by at least one per iteration, so
`tms0Pos - head` iterations always suffice; `fuel` is consumed once per
iteration and is instantiated with exactly that bound below. -/
def tmsSegs (tms tdi : List Bool) : Nat → Nat → Nat → List Segment
  | 0, _, _ => []
  | fuel + 1, head, tms0Pos =>
    if head < tms0Pos then
      Segment.tmsRun head (tmsTail tms0Pos head tdi)
          (slice tms head (tmsTail tms0Pos head tdi))
          (tdi.getD (tmsTail tms0Pos head tdi - 1) false)
        :: tmsSegs tms tdi fuel (tmsTail tms0Pos head tdi) tms0Pos
    else []

/-- The outer `while (head < len(tms_stream))` loop of `send_data`
(src/adapters/pyftdi.py:168-266), recorded as the list of emitted
segments.  One unit of `fuel` per outer iteration; each iteration
advances `head` by at least one, so `len(tms)` units always suffice. -/
def sendSegs (tms tdi : List Bool) : Nat → Nat → List Segment
  | 0, _ => []
  | fuel + 1, head =>
    if head < tms.length then
      if tms.length ≤ tms1PosOf tms head then
        if head < tms1PosOf tms head then
          [Segment.tdiRun head (tms1PosOf tms head)
            (slice tdi head (tms1PosOf tms head))]
        else []
      else
        (if head < tms1PosOf tms head then
          [Segment.tdiRun head (tms1PosOf tms head)
            (slice tdi head (tms1PosOf tms head))]
        else []) ++
        (tmsSegs tms tdi (tms0PosOf tms (tms1PosOf tms head) - tms1PosOf tms head)
            (tms1PosOf tms head) (tms0PosOf tms (tms1PosOf tms head))
          ++ sendSegs tms tdi fuel (tms0PosOf tms (tms1PosOf tms head)))
    else []

/-- The full decomposition computed by one `send_data` call. -/
def segments (tms tdi : List Bool) : List Segment :=
  sendSegs tms tdi tms.length 0

/-- The hardware collaborator (`self.device`): `write_tdi_read_tdo` and
`write_tms_tdi_read_tdo`, each returning TDO bits or failing with a
transport error `ε`. -/
structure Device (ε : Type) where
  write_tdi_read_tdo : List Bool → Except ε (List Bool)
  write_tms_tdi_read_tdo : List Bool → Bool → Except ε (List Bool)

/-- Issue the device call a segment stands for. -/
def runSeg (dev : Device ε) : Segment → Except ε (List Bool)
  | .tdiRun _ _ bits => dev.write_tdi_read_tdo bits
  | .tmsRun _ _ bits v => dev.write_tms_tdi_read_tdo bits v

/-- One device call together with its one-segment trace. -/
def seg1 (dev : Device ε) (s : Segment) : List Segment × Except ε (List Bool) :=
  ([s], runSeg dev s)

/-- Sequencing of two traced computations: a raised transport error
aborts immediately (the second computation is never run), otherwise the
TDO bits are appended in order (`tdo_stream += ...` of the source). -/
def andThen (a b : List Segment × Except ε (List Bool)) :
    List Segment × Except ε (List Bool) :=
  match a with
  | (tr, .error e) => (tr, .error e)
  | (tr, .ok tdo) =>
    match b with
    | (tr2, .error e) => (tr ++ tr2, .error e)
    | (tr2, .ok tdo2) => (tr ++ tr2, .ok (tdo ++ tdo2))

/-- Run a list of segments against the device in order. -/
def processTrace (dev : Device ε) : List Segment → List Segment × Except ε (List Bool)
  | [] => ([], .ok [])
  | s :: rest => andThen (seg1 dev s) (processTrace dev rest)

/-- Inner loop of `send_data` with the device calls interleaved exactly
as in the source (src/adapters/pyftdi.py:222-263): each iteration calls
`write_tms_tdi_read_tdo` and appends the returned TDO bits. -/
def tmsLoop (dev : Device ε) (tms tdi : List Bool) :
    Nat → Nat → Nat → List Segment × Except ε (List Bool)
  | 0, _, _ => ([], .ok [])
  | fuel + 1, head, tms0Pos =>
    if head < tms0Pos then
      andThen (seg1 dev (Segment.tmsRun head (tmsTail tms0Pos head tdi)
          (slice tms head (tmsTail tms0Pos head tdi))
          (tdi.getD (tmsTail tms0Pos head tdi - 1) false)))
        (tmsLoop dev tms tdi fuel (tmsTail tms0Pos head tdi) tms0Pos)
    else ([], .ok [])

/-- Outer loop of `send_data` with the device calls interleaved exactly
as in the source (src/adapters/pyftdi.py:168-266). -/
def sendAux (dev : Device ε) (tms tdi : List Bool) :
    Nat → Nat → List Segment × Except ε (List Bool)
  | 0, _ => ([], .ok [])
  | fuel + 1, head =>
    if head < tms.length then
      if tms.length ≤ tms1PosOf tms head then
        if head < tms1PosOf tms head then
          seg1 dev (Segment.tdiRun head (tms1PosOf tms head)
            (slice tdi head (tms1PosOf tms head)))
        else ([], .ok [])
      else
        andThen
          (if head < tms1PosOf tms head then
            seg1 dev (Segment.tdiRun head (tms1PosOf tms head)
              (slice tdi head (tms1PosOf tms head)))
          else ([], .ok []))
          (andThen (tmsLoop dev tms tdi
              (tms0PosOf tms (tms1PosOf tms head) - tms1PosOf tms head)
              (tms1PosOf tms head) (tms0PosOf tms (tms1PosOf tms head)))
            (sendAux dev tms tdi fuel (tms0PosOf tms (tms1PosOf tms head))))
    else ([], .ok [])

/-- Model of `PyFTDIAdapter.send_data` (src/adapters/pyftdi.py:108-269): the TDO
stream returned to the caller, or the first transport error raised by
the device, which propagates out unchanged. -/
def send_data (dev : Device ε) (tms tdi : List Bool) : Except ε (List Bool) :=
  (sendAux dev tms tdi tms.length 0).2

/-- The sequence of device calls a `send_data` run performs, in order. -/
def send_calls (dev : Device ε) (tms tdi : List Bool) : List Segment :=
  (sendAux dev tms tdi tms.length 0).1

/-- A collaborator that echoes the written bits back as TDO and never fails. -/
def echoDevice : Device Unit :=
  ⟨fun bs => .ok bs, fun bs _ => .ok bs⟩

/-- A collaborator whose every call raises transport error `7`. -/
def failDevice : Device Nat :=
  ⟨fun _ => .error 7, fun _ _ => .error 7⟩

/-- Predicate `RangeChain a ps b` says the half-open ranges `ps` tile `[a, b)`
exactly: they appear in strictly increasing index order, each is
nonempty, the first starts at `a`, each starts where the previous one
ended (no gaps, no overlaps), and the last ends at `b`. -/
def RangeChain : Nat → List (Nat × Nat) → Nat → Prop
  | a, [], b => a = b
  | a, (lo, hi) :: ps, b => a = lo ∧ lo < hi ∧ RangeChain hi ps b

/-- What each emitted segment carries, read off the emission sites of the
source: a `tdiRun` carries the TDI slice of its range
(src/adapters/pyftdi.py:193); a `tmsRun` carries the TMS slice of its
range, its constant TDI value is the TDI bit at the LAST index of the
range (src/adapters/pyftdi.py:260), and the range is at most 7 bits wide
(src/adapters/pyftdi.py:227). -/
def SegFrom (tms tdi : List Bool) : Segment → Prop
  | .tdiRun lo hi bits => bits = slice tdi lo hi
  | .tmsRun lo hi bits v =>
    bits = slice tms lo hi ∧ v = tdi.getD (hi - 1) false ∧ hi ≤ lo + 7

/-- A collaborator that always answers, with one TDO bit per bit written. -/
def DeviceOK (dev : Device ε) : Prop :=
  (∀ bs, ∃ out, dev.write_tdi_read_tdo bs = .ok out ∧ out.length = bs.length) ∧
  (∀ bs v, ∃ out, dev.write_tms_tdi_read_tdo bs v = .ok out ∧ out.length = bs.length)

/-!
Clock negotiation (`set_frequency` / `set_tck_period`,
src/adapters/pyftdi.py:68-88).  Python floats are modelled as `Rat`
(the quantities involved are exact unit conversions) and a raised Python
exception as `Except.error`.
-/

/-- A Python `NameError` (lookup of an unbound name). -/
inductive PyError where
  | nameError (name : String)
deriving DecidableEq

/-- The hardware collaborator's frequency setter: returns the actual
frequency achieved. -/
structure FreqDevice where
  set_frequency : Rat → Rat

/-- Python `int(q)`: truncation toward zero. -/
def pyInt (q : Rat) : Int :=
  if 0 ≤ q then ⌊q⌋ else ⌈q⌉

set_option linter.unusedVariables false in
/-- Model of `PyFTDIAdapter.set_frequency` (src/adapters/pyftdi.py:68-81).
The parameter is spelled `frequncey`, but the first statement of the
body reads the name `frequency`, which is bound nowhere (not a local,
not a global of the module), so every call raises `NameError` before
`self.device.set_frequency` is reached. -/
def set_frequency (device : FreqDevice) (frequncey : Rat) : Except PyError Rat := do
  let frequency ← (Except.error (PyError.nameError "frequency") : Except PyError Rat)
  let actualFreq := device.set_frequency frequency
  pure actualFreq

/-- Model of `PyFTDIAdapter.set_tck_period` (src/adapters/pyftdi.py:83-88):
`int(1e9 / self.set_frequency(1e9 / period))`. -/
def set_tck_period (device : FreqDevice) (period : Rat) : Except PyError Int := do
  let f ← set_frequency device (1000000000 / period)
  pure (pyInt (1000000000 / f))

/-!  Proof development: invariants of the segmentation, then the claims. -/

theorem getD_indep (l : List Bool) (i : Nat) (d e : Bool) (h : i < l.length) :
    l.getD i d = l.getD i e := by
  induction l generalizing i with
  | nil => simp at h
  | cons x xs ih =>
    cases i with
    | zero => rfl
    | succ j => exact ih j (by simp at h; omega)

theorem getD_drop (l : List Bool) (a k : Nat) (d : Bool) :
    (l.drop a).getD k d = l.getD (a + k) d := by
  induction l generalizing a with
  | nil => simp
  | cons x xs ih =>
    cases a with
    | zero => simp
    | succ a => rw [Nat.succ_add]; exact ih a

theorem getD_take (l : List Bool) (n k : Nat) (d : Bool) (h : k < n) :
    (l.take n).getD k d = l.getD k d := by
  induction l generalizing n k with
  | nil => simp
  | cons x xs ih =>
    cases n with
    | zero => omega
    | succ m =>
      cases k with
      | zero => simp
      | succ j => simpa using ih m j (by omega)

theorem slice_getD (l : List Bool) (a b k : Nat) (d : Bool) (h : k < b - a) :
    (slice l a b).getD k d = l.getD (a + k) d := by
  rw [slice, getD_take _ _ _ _ h, getD_drop]

theorem slice_length (l : List Bool) (a b : Nat) :
    (slice l a b).length = min (b - a) (l.length - a) := by
  simp [slice]

theorem slice_zero_length (l : List Bool) : slice l 0 l.length = l := by
  simp [slice]

theorem findBitAux_lt {b : Bool} {l : List Bool} {j : Nat}
    (h : findBitAux b l = some j) : j < l.length := by
  induction l generalizing j with
  | nil => simp [findBitAux] at h
  | cons x xs ih =>
    by_cases hx : x = b
    · simp [findBitAux, hx] at h
      simp only [List.length_cons]
      omega
    · rw [findBitAux, if_neg hx] at h
      cases hfa : findBitAux b xs with
      | none => rw [hfa] at h; simp at h
      | some j0 =>
        rw [hfa] at h
        simp at h
        have := ih hfa
        simp only [List.length_cons]
        omega

theorem findBitAux_found {b : Bool} {l : List Bool} {j : Nat}
    (h : findBitAux b l = some j) : l.getD j (!b) = b := by
  induction l generalizing j with
  | nil => simp [findBitAux] at h
  | cons x xs ih =>
    by_cases hx : x = b
    · simp [findBitAux, hx] at h
      subst h
      simpa using hx
    · rw [findBitAux, if_neg hx] at h
      cases hfa : findBitAux b xs with
      | none => rw [hfa] at h; simp at h
      | some j0 =>
        rw [hfa] at h
        simp at h
        subst h
        simpa using ih hfa

theorem findBitAux_before {b : Bool} {l : List Bool} {j : Nat}
    (h : findBitAux b l = some j) : ∀ k, k < j → l.getD k (!b) ≠ b := by
  induction l generalizing j with
  | nil => simp [findBitAux] at h
  | cons x xs ih =>
    by_cases hx : x = b
    · simp [findBitAux, hx] at h
      omega
    · rw [findBitAux, if_neg hx] at h
      cases hfa : findBitAux b xs with
      | none => rw [hfa] at h; simp at h
      | some j0 =>
        rw [hfa] at h
        simp at h
        subst h
        intro k hk
        cases k with
        | zero => simpa using hx
        | succ k0 => simpa using ih hfa k0 (by omega)

theorem findBitAux_none {b : Bool} {l : List Bool}
    (h : findBitAux b l = none) : ∀ k, k < l.length → l.getD k (!b) ≠ b := by
  induction l with
  | nil => simp
  | cons x xs ih =>
    by_cases hx : x = b
    · simp [findBitAux, hx] at h
    · rw [findBitAux, if_neg hx] at h
      intro k hk
      cases k with
      | zero => simpa using hx
      | succ k0 =>
        cases hfa : findBitAux b xs with
        | none =>
          have := ih hfa k0 (by simpa using hk)
          simpa using this
        | some j0 => rw [hfa] at h; simp at h

theorem findBit_bounds {bs : List Bool} {b : Bool} {start p : Nat}
    (h : findBit bs b start = some p) : start ≤ p ∧ p < bs.length := by
  rw [findBit] at h
  cases hfa : findBitAux b (bs.drop start) with
  | none => rw [hfa] at h; simp at h
  | some j =>
    rw [hfa] at h
    simp at h
    have hj := findBitAux_lt hfa
    simp at hj
    omega

theorem findBitIn_bounds {bs : List Bool} {b : Bool} {start stop p : Nat}
    (h : findBitIn bs b start stop = some p) :
    start ≤ p ∧ p < stop ∧ p < bs.length := by
  rw [findBitIn] at h
  cases hfa : findBitAux b (slice bs start stop) with
  | none => rw [hfa] at h; simp at h
  | some j =>
    rw [hfa] at h
    simp at h
    have hj := findBitAux_lt hfa
    rw [slice_length] at hj
    omega

theorem findBitIn_self_lt {bs : List Bool} {start stop p : Nat}
    (h : findBitIn bs (!(bs.getD start false)) start stop = some p) :
    start < p := by
  rw [findBitIn] at h
  cases hfa : findBitAux (!(bs.getD start false)) (slice bs start stop) with
  | none => rw [hfa] at h; simp at h
  | some j =>
    rw [hfa] at h
    simp at h
    have hj := findBitAux_lt hfa
    rcases Nat.eq_zero_or_pos j with hj0 | hj0
    · exfalso
      subst hj0
      have hfound := findBitAux_found hfa
      rw [slice_length] at hj
      have hlt : start < bs.length := by omega
      have hsl : (slice bs start stop).getD 0 (!(!(bs.getD start false))) =
          bs.getD (start + 0) (!(!(bs.getD start false))) :=
        slice_getD bs start stop 0 _ (by omega)
      rw [hsl] at hfound
      rw [getD_indep bs (start + 0) _ false (by omega)] at hfound
      simp at hfound
    · omega

theorem RangeChain_le {a b : Nat} {ps : List (Nat × Nat)}
    (h : RangeChain a ps b) : a ≤ b := by
  induction ps generalizing a with
  | nil => exact Nat.le_of_eq h
  | cons p ps ih =>
    obtain ⟨lo, hi⟩ := p
    obtain ⟨h1, h2, h3⟩ := h
    have := ih h3
    omega

theorem RangeChain_append {a b c : Nat} {ps qs : List (Nat × Nat)}
    (h1 : RangeChain a ps b) (h2 : RangeChain b qs c) :
    RangeChain a (ps ++ qs) c := by
  induction ps generalizing a with
  | nil =>
    have hab : a = b := h1
    subst hab
    simpa using h2
  | cons p ps ih =>
    obtain ⟨lo, hi⟩ := p
    obtain ⟨ha, hlt, hrest⟩ := h1
    exact ⟨ha, hlt, ih hrest⟩

theorem RangeChain_mem {a b lo hi : Nat} {ps : List (Nat × Nat)}
    (h : RangeChain a ps b) (hmem : (lo, hi) ∈ ps) :
    a ≤ lo ∧ lo < hi ∧ hi ≤ b := by
  induction ps generalizing a with
  | nil => simp at hmem
  | cons p ps ih =>
    obtain ⟨lo1, hi1⟩ := p
    obtain ⟨ha, hlt, hrest⟩ := h
    rcases List.mem_cons.mp hmem with heq | htail
    · injection heq with e1 e2
      subst e1; subst e2
      exact ⟨Nat.le_of_eq ha, hlt, RangeChain_le hrest⟩
    · have := ih hrest htail
      omega

theorem RangeChain_sum {a b : Nat} {ps : List (Nat × Nat)}
    (h : RangeChain a ps b) :
    (ps.map (fun p => p.2 - p.1)).sum = b - a := by
  induction ps generalizing a with
  | nil =>
    have hab : a = b := h
    subst hab
    simp
  | cons p ps ih =>
    obtain ⟨lo, hi⟩ := p
    obtain ⟨ha, hlt, hrest⟩ := h
    have hhb := RangeChain_le hrest
    have := ih hrest
    simp [this]
    omega

theorem RangeChain_length {a b : Nat} {ps : List (Nat × Nat)}
    (h : RangeChain a ps b) : ps.length ≤ b - a := by
  induction ps generalizing a with
  | nil => simp
  | cons p ps ih =>
    obtain ⟨lo, hi⟩ := p
    obtain ⟨ha, hlt, hrest⟩ := h
    have := ih hrest
    have := RangeChain_le hrest
    simp only [List.length_cons]
    omega

theorem slice_append (l : List Bool) (a m b : Nat) (h1 : a ≤ m) (h2 : m ≤ b) :
    slice l a b = slice l a m ++ slice l m b := by
  have hsum : b - a = (m - a) + (b - m) := by omega
  rw [slice, hsum, List.take_add]
  congr 1
  rw [List.drop_drop, slice]
  congr 2
  omega

theorem RangeChain_flatten (l : List Bool) {a b : Nat} {ps : List (Nat × Nat)}
    (h : RangeChain a ps b) :
    (ps.map (fun p => slice l p.1 p.2)).flatten = slice l a b := by
  induction ps generalizing a with
  | nil =>
    have hab : a = b := h
    subst hab
    simp [slice]
  | cons p ps ih =>
    obtain ⟨lo, hi⟩ := p
    obtain ⟨ha, hlt, hrest⟩ := h
    have hhb := RangeChain_le hrest
    rw [List.map_cons, List.flatten_cons, ih hrest, ha]
    exact (slice_append l lo hi b (by omega) hhb).symm

theorem tms1PosOf_bounds (tms : List Bool) (head : Nat) (h : head ≤ tms.length) :
    head ≤ tms1PosOf tms head ∧ tms1PosOf tms head ≤ tms.length := by
  rw [tms1PosOf]
  cases hf : findBit tms true head with
  | none => exact ⟨h, Nat.le_refl _⟩
  | some p =>
    have := findBit_bounds hf
    exact ⟨this.1, Nat.le_of_lt this.2⟩

theorem tms0PosOf_bounds (tms : List Bool) (start : Nat) (h : start < tms.length) :
    start < tms0PosOf tms start ∧ tms0PosOf tms start ≤ tms.length := by
  rw [tms0PosOf]
  cases hf : findBit tms false start with
  | none => exact ⟨h, Nat.le_refl _⟩
  | some p =>
    have := findBit_bounds hf
    exact ⟨Nat.lt_succ_of_le this.1, Nat.succ_le_of_lt this.2⟩

theorem tmsTail_bounds (tms0Pos head : Nat) (tdi : List Bool) (h : head < tms0Pos) :
    head < tmsTail tms0Pos head tdi ∧ tmsTail tms0Pos head tdi ≤ tms0Pos ∧
      tmsTail tms0Pos head tdi ≤ head + 7 := by
  rw [tmsTail]
  cases hf : findBitIn tdi (!(tdi.getD head false)) head (min tms0Pos (head + 7)) with
  | none => simp; omega
  | some p =>
    have h1 := findBitIn_self_lt hf
    have h2 := findBitIn_bounds hf
    simp
    omega

theorem bool_eq_of_ne_not {x y : Bool} (h : x ≠ !y) : x = y := by
  cases x <;> cases y <;> simp_all

/-- How `tmsTail` was computed: either the TDI-change search hit at `p`
(and the tail is `p`), or it found nothing and the tail is the full
7-bit-capped window. -/
theorem tmsTail_spec (tms0Pos head : Nat) (tdi : List Bool) :
    (∃ p, findBitIn tdi (!(tdi.getD head false)) head (min tms0Pos (head + 7)) = some p ∧
      tmsTail tms0Pos head tdi = p) ∨
    (findBitIn tdi (!(tdi.getD head false)) head (min tms0Pos (head + 7)) = none ∧
      tmsTail tms0Pos head tdi = min tms0Pos (head + 7)) := by
  rw [tmsTail]
  cases hf : findBitIn tdi (!(tdi.getD head false)) head (min tms0Pos (head + 7)) with
  | some p => exact Or.inl ⟨p, rfl, rfl⟩
  | none => exact Or.inr ⟨rfl, rfl⟩

/-- TDI is constant (equal to `tdi[head]`) over the whole window
`[head, tmsTail ...)`: the window ends just before the first index where
TDI changes, when there is one. -/
theorem tmsTail_const (tms0Pos head : Nat) (tdi : List Bool) :
    ∀ i, head ≤ i → i < tmsTail tms0Pos head tdi → i < tdi.length →
      tdi.getD i false = tdi.getD head false := by
  intro i h1 h2 h3
  rcases Nat.eq_or_lt_of_le h1 with heq | hlt
  · rw [heq]
  rcases tmsTail_spec tms0Pos head tdi with ⟨p, hf, htail⟩ | ⟨hf, htail⟩
  · rw [htail] at h2
    rw [findBitIn] at hf
    cases hfa : findBitAux (!(tdi.getD head false)) (slice tdi head (min tms0Pos (head + 7))) with
    | none => rw [hfa] at hf; simp at hf
    | some j =>
      rw [hfa] at hf
      simp at hf
      have hjlen := findBitAux_lt hfa
      rw [slice_length] at hjlen
      have hb := findBitAux_before hfa (i - head) (by omega)
      rw [slice_getD tdi head (min tms0Pos (head + 7)) (i - head) _ (by omega)] at hb
      have hik : head + (i - head) = i := by omega
      rw [hik] at hb
      rw [getD_indep tdi i _ false h3] at hb
      exact bool_eq_of_ne_not hb
  · rw [htail] at h2
    rw [findBitIn] at hf
    cases hfa : findBitAux (!(tdi.getD head false)) (slice tdi head (min tms0Pos (head + 7))) with
    | some j => rw [hfa] at hf; simp at hf
    | none =>
      have hb := findBitAux_none hfa (i - head) (by rw [slice_length]; omega)
      rw [slice_getD tdi head (min tms0Pos (head + 7)) (i - head) _ (by omega)] at hb
      have hik : head + (i - head) = i := by omega
      rw [hik] at hb
      rw [getD_indep tdi i _ false h3] at hb
      exact bool_eq_of_ne_not hb

/-- The ranges recorded by the inner loop tile `[head, tms0Pos)` exactly. -/
theorem tmsSegs_chain (tms tdi : List Bool) :
    ∀ fuel head tms0Pos, head ≤ tms0Pos → tms0Pos - head ≤ fuel →
      RangeChain head (ranges (tmsSegs tms tdi fuel head tms0Pos)) tms0Pos := by
  intro fuel
  induction fuel with
  | zero =>
    intro head tms0Pos h1 h2
    have : head = tms0Pos := by omega
    simpa [tmsSegs, ranges] using this
  | succ fuel ih =>
    intro head tms0Pos h1 h2
    rw [tmsSegs]
    by_cases hlt : head < tms0Pos
    · rw [if_pos hlt]
      have hb := tmsTail_bounds tms0Pos head tdi hlt
      refine ⟨rfl, hb.1, ?_⟩
      exact ih (tmsTail tms0Pos head tdi) tms0Pos hb.2.1 (by omega)
    · rw [if_neg hlt]
      have : head = tms0Pos := by omega
      simpa [ranges] using this

/-- The ranges recorded by the outer loop tile `[head, len(tms))` exactly. -/
theorem sendSegs_chain (tms tdi : List Bool) :
    ∀ fuel head, head ≤ tms.length → tms.length - head ≤ fuel →
      RangeChain head (ranges (sendSegs tms tdi fuel head)) tms.length := by
  intro fuel
  induction fuel with
  | zero =>
    intro head h1 h2
    have : head = tms.length := by omega
    simpa [sendSegs, ranges] using this
  | succ fuel ih =>
    intro head h1 h2
    rw [sendSegs]
    by_cases hlt : head < tms.length
    · rw [if_pos hlt]
      have h1b := tms1PosOf_bounds tms head (by omega)
      by_cases hend : tms.length ≤ tms1PosOf tms head
      · rw [if_pos hend]
        have hpos : tms1PosOf tms head = tms.length := by omega
        by_cases hpre : head < tms1PosOf tms head
        · rw [if_pos hpre]
          simp only [ranges, List.map_cons, List.map_nil, rangeOf, Segment.lo, Segment.hi]
          exact ⟨rfl, by omega, by simpa [RangeChain] using hpos⟩
        · omega
      · rw [if_neg hend]
        have h0b := tms0PosOf_bounds tms (tms1PosOf tms head) (by omega)
        have hchain1 : RangeChain head
            (ranges (if head < tms1PosOf tms head
              then [Segment.tdiRun head (tms1PosOf tms head)
                (slice tdi head (tms1PosOf tms head))]
              else [])) (tms1PosOf tms head) := by
          by_cases hpre : head < tms1PosOf tms head
          · rw [if_pos hpre]
            simp only [ranges, List.map_cons, List.map_nil, rangeOf, Segment.lo, Segment.hi]
            exact ⟨rfl, hpre, rfl⟩
          · rw [if_neg hpre]
            have : head = tms1PosOf tms head := by omega
            simpa [ranges] using this
        have hchain2 := tmsSegs_chain tms tdi (tms0PosOf tms (tms1PosOf tms head) - tms1PosOf tms head)
          (tms1PosOf tms head) (tms0PosOf tms (tms1PosOf tms head)) (by omega) (by omega)
        have hchain3 := ih (tms0PosOf tms (tms1PosOf tms head)) (by omega) (by omega)
        simp only [ranges, List.map_append] at hchain1 hchain2 hchain3 ⊢
        exact RangeChain_append hchain1 (RangeChain_append hchain2 hchain3)
    · rw [if_neg hlt]
      have : head = tms.length := by omega
      simpa [ranges] using this

theorem segments_chain (tms tdi : List Bool) :
    RangeChain 0 (ranges (segments tms tdi)) tms.length :=
  sendSegs_chain tms tdi tms.length 0 (Nat.zero_le _) (by omega)

theorem tmsSegs_from (tms tdi : List Bool) :
    ∀ fuel head tms0Pos s, s ∈ tmsSegs tms tdi fuel head tms0Pos →
      SegFrom tms tdi s := by
  intro fuel
  induction fuel with
  | zero => intro head tms0Pos s hs; simp [tmsSegs] at hs
  | succ fuel ih =>
    intro head tms0Pos s hs
    rw [tmsSegs] at hs
    by_cases hlt : head < tms0Pos
    · rw [if_pos hlt] at hs
      rcases List.mem_cons.mp hs with heq | htail
      · subst heq
        have hb := tmsTail_bounds tms0Pos head tdi hlt
        exact ⟨rfl, rfl, by omega⟩
      · exact ih _ _ s htail
    · rw [if_neg hlt] at hs
      simp at hs

theorem sendSegs_from (tms tdi : List Bool) :
    ∀ fuel head s, s ∈ sendSegs tms tdi fuel head → SegFrom tms tdi s := by
  intro fuel
  induction fuel with
  | zero => intro head s hs; simp [sendSegs] at hs
  | succ fuel ih =>
    intro head s hs
    rw [sendSegs] at hs
    by_cases hlt : head < tms.length
    · rw [if_pos hlt] at hs
      have hpre : ∀ t, t ∈ (if head < tms1PosOf tms head
          then [Segment.tdiRun head (tms1PosOf tms head)
            (slice tdi head (tms1PosOf tms head))]
          else []) → SegFrom tms tdi t := by
        intro t ht
        by_cases hp : head < tms1PosOf tms head
        · rw [if_pos hp] at ht
          rcases List.mem_singleton.mp ht with rfl
          exact rfl
        · rw [if_neg hp] at ht
          simp at ht
      by_cases hend : tms.length ≤ tms1PosOf tms head
      · rw [if_pos hend] at hs
        exact hpre s hs
      · rw [if_neg hend] at hs
        rcases List.mem_append.mp hs with h1 | h23
        · exact hpre s h1
        · rcases List.mem_append.mp h23 with h2 | h3
          · exact tmsSegs_from tms tdi _ _ _ s h2
          · exact ih _ s h3
    · rw [if_neg hlt] at hs
      simp at hs

theorem segments_from (tms tdi : List Bool) :
    ∀ s ∈ segments tms tdi, SegFrom tms tdi s :=
  fun s hs => sendSegs_from tms tdi tms.length 0 s hs

/-- TDI-constancy of every emitted TMS run, over the recorded range. -/
theorem tmsSegs_const (tms tdi : List Bool) :
    ∀ fuel head tms0Pos, tms0Pos ≤ tdi.length →
      ∀ lo hi bits v, Segment.tmsRun lo hi bits v ∈ tmsSegs tms tdi fuel head tms0Pos →
        ∀ i, lo ≤ i → i < hi → tdi.getD i false = tdi.getD lo false := by
  intro fuel
  induction fuel with
  | zero => intro head tms0Pos _ lo hi bits v hs; simp [tmsSegs] at hs
  | succ fuel ih =>
    intro head tms0Pos hlen lo hi bits v hs
    rw [tmsSegs] at hs
    by_cases hlt : head < tms0Pos
    · rw [if_pos hlt] at hs
      rcases List.mem_cons.mp hs with heq | htail
      · injection heq with e1 e2 e3 e4
        subst e1; subst e2
        intro i hi1 hi2
        have hb := tmsTail_bounds tms0Pos lo tdi hlt
        exact tmsTail_const tms0Pos lo tdi i hi1 hi2 (by omega)
      · exact ih _ _ hlen lo hi bits v htail
    · rw [if_neg hlt] at hs
      simp at hs

theorem sendSegs_const (tms tdi : List Bool) (hlen : tms.length ≤ tdi.length) :
    ∀ fuel head lo hi bits v, Segment.tmsRun lo hi bits v ∈ sendSegs tms tdi fuel head →
      ∀ i, lo ≤ i → i < hi → tdi.getD i false = tdi.getD lo false := by
  intro fuel
  induction fuel with
  | zero => intro head lo hi bits v hs; simp [sendSegs] at hs
  | succ fuel ih =>
    intro head lo hi bits v hs
    rw [sendSegs] at hs
    by_cases hlt : head < tms.length
    · rw [if_pos hlt] at hs
      have hpre : Segment.tmsRun lo hi bits v ∉ (if head < tms1PosOf tms head
          then [Segment.tdiRun head (tms1PosOf tms head)
            (slice tdi head (tms1PosOf tms head))]
          else []) := by
        by_cases hp : head < tms1PosOf tms head <;> simp [hp]
      by_cases hend : tms.length ≤ tms1PosOf tms head
      · rw [if_pos hend] at hs
        exact absurd hs hpre
      · rw [if_neg hend] at hs
        rcases List.mem_append.mp hs with h1 | h23
        · exact absurd h1 hpre
        · rcases List.mem_append.mp h23 with h2 | h3
          · have h0b := tms0PosOf_bounds tms (tms1PosOf tms head) (by omega)
            exact tmsSegs_const tms tdi _ _ _ (by omega) lo hi bits v h2
          · exact ih _ lo hi bits v h3
    · rw [if_neg hlt] at hs
      simp at hs

theorem andThen_nil_left {ε : Type} (a : List Segment × Except ε (List Bool)) :
    andThen (([], .ok []) : List Segment × Except ε (List Bool)) a = a := by
  obtain ⟨tr, r⟩ := a
  cases r <;> simp [andThen]

theorem andThen_nil_right {ε : Type} (a : List Segment × Except ε (List Bool)) :
    andThen a (([], .ok []) : List Segment × Except ε (List Bool)) = a := by
  obtain ⟨tr, r⟩ := a
  cases r <;> simp [andThen]

theorem andThen_assoc {ε : Type} (a b c : List Segment × Except ε (List Bool)) :
    andThen (andThen a b) c = andThen a (andThen b c) := by
  obtain ⟨ta, ra⟩ := a
  obtain ⟨tb, rb⟩ := b
  obtain ⟨tc, rc⟩ := c
  cases ra <;> cases rb <;> cases rc <;> simp [andThen]

theorem processTrace_append {ε : Type} (dev : Device ε) (xs ys : List Segment) :
    processTrace dev (xs ++ ys) = andThen (processTrace dev xs) (processTrace dev ys) := by
  induction xs with
  | nil => simp [processTrace, andThen_nil_left]
  | cons s xs ih =>
    simp only [List.cons_append, processTrace, List.append_eq, ih, andThen_assoc]

theorem processTrace_singleton {ε : Type} (dev : Device ε) (s : Segment) :
    processTrace dev [s] = seg1 dev s := by
  rw [processTrace, processTrace, andThen_nil_right]

/-- The interleaved inner loop is the pure segmentation followed by the
device calls, segment by segment. -/
theorem tmsLoop_eq (dev : Device ε) (tms tdi : List Bool) :
    ∀ fuel head tms0Pos,
      tmsLoop dev tms tdi fuel head tms0Pos =
        processTrace dev (tmsSegs tms tdi fuel head tms0Pos) := by
  intro fuel
  induction fuel with
  | zero => intro head tms0Pos; rfl
  | succ fuel ih =>
    intro head tms0Pos
    rw [tmsLoop, tmsSegs]
    by_cases hlt : head < tms0Pos
    · rw [if_pos hlt, if_pos hlt, processTrace, ih]
    · rw [if_neg hlt, if_neg hlt]; rfl

/-- The interleaved outer loop is the pure segmentation followed by the
device calls, segment by segment. -/
theorem sendAux_eq (dev : Device ε) (tms tdi : List Bool) :
    ∀ fuel head,
      sendAux dev tms tdi fuel head = processTrace dev (sendSegs tms tdi fuel head) := by
  intro fuel
  induction fuel with
  | zero => intro head; rfl
  | succ fuel ih =>
    intro head
    rw [sendAux, sendSegs]
    by_cases hlt : head < tms.length
    · rw [if_pos hlt, if_pos hlt]
      have hfirst : (if head < tms1PosOf tms head then
            seg1 dev (Segment.tdiRun head (tms1PosOf tms head)
              (slice tdi head (tms1PosOf tms head)))
          else ([], .ok [])) =
          processTrace dev (if head < tms1PosOf tms head then
            [Segment.tdiRun head (tms1PosOf tms head)
              (slice tdi head (tms1PosOf tms head))]
          else []) := by
        by_cases hp : head < tms1PosOf tms head
        · rw [if_pos hp, if_pos hp, processTrace_singleton]
        · rw [if_neg hp, if_neg hp]; rfl
      by_cases hend : tms.length ≤ tms1PosOf tms head
      · rw [if_pos hend, if_pos hend]
        exact hfirst
      · rw [if_neg hend, if_neg hend]
        rw [processTrace_append, processTrace_append, hfirst, tmsLoop_eq, ih]
    · rw [if_neg hlt, if_neg hlt]; rfl

/-- The run of `send_data` processes exactly the segments of the pure decomposition,
in order. -/
theorem send_data_eq (dev : Device ε) (tms tdi : List Bool) :
    (send_calls dev tms tdi, send_data dev tms tdi) =
      processTrace dev (segments tms tdi) := by
  rw [send_calls, send_data, segments, sendAux_eq]

theorem processTrace_ok {ε : Type} {dev : Device ε} (hdev : DeviceOK dev) :
    ∀ segs : List Segment, ∃ out,
      processTrace dev segs = (segs, .ok out) ∧
      out.length = (segs.map Segment.bitLen).sum := by
  intro segs
  induction segs with
  | nil => exact ⟨[], rfl, rfl⟩
  | cons s rest ih =>
    obtain ⟨out2, hrest, hlen2⟩ := ih
    have hcall : ∃ out1, runSeg dev s = .ok out1 ∧ out1.length = Segment.bitLen s := by
      cases s with
      | tdiRun lo hi bits => exact hdev.1 bits
      | tmsRun lo hi bits v => exact hdev.2 bits v
    obtain ⟨out1, hc, hlen1⟩ := hcall
    refine ⟨out1 ++ out2, ?_, by simp [hlen1, hlen2]⟩
    rw [processTrace, seg1, hc, hrest, andThen]
    simp

/-- If the device fails on the `k`-th segment, having answered the `k`
segments before it, then exactly the first `k + 1` segments are
processed and the run ends with that error. -/
theorem processTrace_fail {ε : Type} (dev : Device ε) :
    ∀ (segs : List Segment) (k : Nat) (hk : k < segs.length) (e : ε),
      runSeg dev (segs.get ⟨k, hk⟩) = .error e →
      (∀ i (hi : i < k), ∃ out, runSeg dev (segs.get ⟨i, Nat.lt_trans hi hk⟩) = .ok out) →
      processTrace dev segs = (segs.take (k + 1), .error e) := by
  intro segs
  induction segs with
  | nil => intro k hk; simp at hk
  | cons s rest ih =>
    intro k hk e hfail hok
    cases k with
    | zero =>
      simp only [List.get] at hfail
      rw [processTrace, seg1, hfail]
      rw [andThen]
      rfl
    | succ k =>
      obtain ⟨out, hout⟩ := hok 0 (Nat.succ_pos k)
      simp only [List.get] at hout hfail
      have htail := ih k (by simpa using hk) e hfail
        (fun i hi => hok (i + 1) (by omega))
      rw [processTrace, seg1, hout, htail, andThen]
      rfl

/-- Any fuel at least the remaining bit count gives the same decomposition:
the outer loop finishes within `len(tms) - head` iterations. -/
theorem sendSegs_fuel (tms tdi : List Bool) :
    ∀ fuel fuel2 head, tms.length - head ≤ fuel → tms.length - head ≤ fuel2 →
      sendSegs tms tdi fuel head = sendSegs tms tdi fuel2 head := by
  have hstop : ∀ fuel head, tms.length ≤ head → sendSegs tms tdi fuel head = [] := by
    intro fuel head h
    cases fuel with
    | zero => rfl
    | succ fuel => rw [sendSegs, if_neg (by omega)]
  intro fuel
  induction fuel with
  | zero =>
    intro fuel2 head h1 h2
    rw [hstop fuel2 head (by omega)]
    rfl
  | succ fuel ih =>
    intro fuel2 head h1 h2
    by_cases hlt : head < tms.length
    · cases fuel2 with
      | zero => omega
      | succ fuel2 =>
        rw [sendSegs, sendSegs, if_pos hlt, if_pos hlt]
        by_cases hend : tms.length ≤ tms1PosOf tms head
        · rw [if_pos hend, if_pos hend]
        · rw [if_neg hend, if_neg hend]
          have h1b := tms1PosOf_bounds tms head (by omega)
          have h0b := tms0PosOf_bounds tms (tms1PosOf tms head) (by omega)
          rw [ih fuel2 (tms0PosOf tms (tms1PosOf tms head)) (by omega) (by omega)]
    · rw [hstop (fuel + 1) head (by omega), hstop fuel2 head (by omega)]

theorem segments_mem_range (tms tdi : List Bool) {s : Segment}
    (hs : s ∈ segments tms tdi) :
    s.lo < s.hi ∧ s.hi ≤ tms.length := by
  have h := RangeChain_mem (segments_chain tms tdi)
    (List.mem_map_of_mem rangeOf hs)
  exact ⟨h.2.1, h.2.2⟩

theorem segments_bitLen (tms tdi : List Bool) (h : tms.length = tdi.length)
    {s : Segment} (hs : s ∈ segments tms tdi) :
    Segment.bitLen s = s.hi - s.lo := by
  have hr := segments_mem_range tms tdi hs
  have hf := segments_from tms tdi s hs
  cases s with
  | tdiRun lo hi bits =>
    rw [SegFrom] at hf
    simp only [Segment.bitLen, Segment.lo, Segment.hi] at hr ⊢
    rw [hf, slice_length]
    omega
  | tmsRun lo hi bits v =>
    rw [SegFrom] at hf
    simp only [Segment.bitLen, Segment.lo, Segment.hi] at hr ⊢
    rw [hf.1, slice_length]
    omega

theorem segments_bitLen_sum (tms tdi : List Bool) (h : tms.length = tdi.length) :
    ((segments tms tdi).map Segment.bitLen).sum = tms.length := by
  have h1 : (segments tms tdi).map Segment.bitLen =
      (segments tms tdi).map (fun s => s.hi - s.lo) :=
    List.map_congr_left (fun s hs => segments_bitLen tms tdi h hs)
  have h2 : (segments tms tdi).map (fun s => s.hi - s.lo) =
      (ranges (segments tms tdi)).map (fun p => p.2 - p.1) := by
    rw [ranges, List.map_map]
    rfl
  rw [h1, h2, RangeChain_sum (segments_chain tms tdi)]
  omega

theorem segments_flatten (tms tdi : List Bool) :
    ((segments tms tdi).map (fun s => slice tms s.lo s.hi)).flatten = tms := by
  have h2 : (segments tms tdi).map (fun s => slice tms s.lo s.hi) =
      (ranges (segments tms tdi)).map (fun p => slice tms p.1 p.2) := by
    rw [ranges, List.map_map]
    rfl
  rw [h2, RangeChain_flatten tms (segments_chain tms tdi), slice_zero_length]

/-- C1: for every pair of equal-length bit vectors (including length 0),
the segments emitted by `send_data` cover exactly `[0, N)`: their
recorded ranges form a chain starting at 0 and ending at `N` (strictly
increasing, nonempty, no gaps, no overlaps), the bit-lengths of the
emitted segments sum to `N`, and concatenating the TMS slices of all
segment ranges in order reproduces the original `tms` vector. -/
theorem segments_cover (tms tdi : List Bool) (h : tms.length = tdi.length) :
    RangeChain 0 (ranges (segments tms tdi)) tms.length ∧
    ((segments tms tdi).map Segment.bitLen).sum = tms.length ∧
    ((segments tms tdi).map (fun s => slice tms s.lo s.hi)).flatten = tms :=
  ⟨segments_chain tms tdi, segments_bitLen_sum tms tdi h, segments_flatten tms tdi⟩

/-- Witness for C1 at `tms = [true, false]`, `tdi = [false, true]`. -/
theorem segments_cover_witness :
    RangeChain 0 (ranges (segments [true, false] [false, true])) 2 ∧
    ((segments [true, false] [false, true]).map Segment.bitLen).sum = 2 ∧
    ((segments [true, false] [false, true]).map
      (fun s => slice [true, false] s.lo s.hi)).flatten = [true, false] :=
  segments_cover [true, false] [false, true] rfl

/-- C2: every TMS-run segment that `send_data` passes to
`write_tms_tdi_read_tdo` carries between 1 and 7 TMS bits.  (This needs
no hypothesis on the inputs: it holds for any pair of vectors.) -/
theorem tmsRun_length_bounds (tms tdi : List Bool) (lo hi : Nat)
    (bits : List Bool) (v : Bool)
    (hmem : Segment.tmsRun lo hi bits v ∈ segments tms tdi) :
    1 ≤ bits.length ∧ bits.length ≤ 7 := by
  have hr := segments_mem_range tms tdi hmem
  simp only [Segment.lo, Segment.hi] at hr
  have hf := segments_from tms tdi _ hmem
  rw [SegFrom] at hf
  rw [hf.1, slice_length]
  omega

/-- Witness for C2 at `tms = [true]`, `tdi = [false]`, whose single
segment is `tmsRun 0 1 [true] false`. -/
theorem tmsRun_length_bounds_witness :
    1 ≤ ([true] : List Bool).length ∧ ([true] : List Bool).length ≤ 7 :=
  tmsRun_length_bounds [true] [false] 0 1 [true] false (by decide)

/-- C3 counterexample: `send_data` performs no length check whatsoever
(there is no `LengthMismatchError` anywhere in the code).  Called with
`tms` of length 5 (all zero) and `tdi` of length 4, it does not fail:
one `write_tdi_read_tdo` call reaches the hardware collaborator
(carrying the clamped 4-bit `tdi[0:5]` slice) and the run returns
normally, contradicting the claim that no call reaches the hardware. -/
theorem send_data_no_length_check_counterexample :
    send_calls echoDevice (List.replicate 5 false) (List.replicate 4 false) ≠ [] ∧
    send_data echoDevice (List.replicate 5 false) (List.replicate 4 false) =
      .ok (List.replicate 4 false) :=
  ⟨by decide, rfl⟩

/-- C3 amended: with `tms` of length 5 (all zero) and `tdi` of length 4,
`send_data` raises no error: it issues exactly one hardware call, a
`write_tdi_read_tdo` of the clamped 4-bit slice `tdi[0:5]`, and returns
the collaborator's 4-bit answer. -/
theorem send_data_no_length_check :
    send_calls echoDevice (List.replicate 5 false) (List.replicate 4 false) =
      [Segment.tdiRun 0 5 (List.replicate 4 false)] ∧
    send_data echoDevice (List.replicate 5 false) (List.replicate 4 false) =
      .ok (List.replicate 4 false) :=
  ⟨rfl, rfl⟩

/-- C4 counterexample: for `tms = "0001111000"`, `tdi = "0000000000"`
the emitted ranges are NOT `[0,3), [3,7), [7,10)` as claimed: the TMS
run keeps the bit at index 7 that returns TMS to 0 (`tms0Pos = find + 1`
in the source), so the actual ranges are `[0,3), [3,8), [8,10)`. -/
theorem send_data_example_counterexample :
    ranges (segments [false, false, false, true, true, true, true, false, false, false]
        (List.replicate 10 false)) ≠ [(0, 3), (3, 7), (7, 10)] ∧
    ranges (segments [false, false, false, true, true, true, true, false, false, false]
        (List.replicate 10 false)) = [(0, 3), (3, 8), (8, 10)] :=
  ⟨by decide, rfl⟩

/-- C4 amended: for `tms = "0001111000"`, `tdi = "0000000000"`,
`send_data` emits exactly `TdiRun` over `[0,3)`, `TmsRun` over `[3,8)`
with `tdi_value = 0` (the run includes the index-7 bit that returns TMS
to 0), and `TdiRun` over `[8,10)`, in that order. -/
theorem send_data_example_segments :
    segments [false, false, false, true, true, true, true, false, false, false]
        (List.replicate 10 false) =
      [Segment.tdiRun 0 3 [false, false, false],
       Segment.tmsRun 3 8 [true, true, true, true, false] false,
       Segment.tdiRun 8 10 [false, false]] :=
  rfl

/-- C5: for every emitted TMS-run segment over `[lo, hi)`, the constant
`tdi_value` handed to `write_tms_tdi_read_tdo` is the `tdi` bit at the
run's final index `hi - 1` (which is in range), exactly as at
src/adapters/pyftdi.py:260. -/
theorem tmsRun_tdi_value_last (tms tdi : List Bool) (lo hi : Nat)
    (bits : List Bool) (v : Bool) (h : tms.length = tdi.length)
    (hmem : Segment.tmsRun lo hi bits v ∈ segments tms tdi) :
    hi - 1 < tdi.length ∧ v = tdi.getD (hi - 1) false := by
  have hr := segments_mem_range tms tdi hmem
  simp only [Segment.lo, Segment.hi] at hr
  have hf := segments_from tms tdi _ hmem
  rw [SegFrom] at hf
  exact ⟨by omega, hf.2.1⟩

/-- Witness for C5 at `tms = [true]`, `tdi = [false]`. -/
theorem tmsRun_tdi_value_last_witness :
    1 - 1 < ([false] : List Bool).length ∧
    false = ([false] : List Bool).getD (1 - 1) false :=
  tmsRun_tdi_value_last [true] [false] 0 1 [true] false rfl (by decide)

/-- C6: if the collaborator answers every call with one TDO bit per bit
written, `send_data` on equal-length inputs returns a vector of length
`len(tms)`. -/
theorem send_data_length {ε : Type} (dev : Device ε) (tms tdi : List Bool)
    (hdev : DeviceOK dev) (h : tms.length = tdi.length) :
    ∃ out, send_data dev tms tdi = .ok out ∧ out.length = tms.length := by
  obtain ⟨out, hpt, hlen⟩ := processTrace_ok hdev (segments tms tdi)
  refine ⟨out, ?_, by rw [hlen, segments_bitLen_sum tms tdi h]⟩
  have heq := send_data_eq dev tms tdi
  rw [hpt] at heq
  exact congrArg Prod.snd heq

/-- Witness for C6 at `tms = [false, true]`, `tdi = [true, false]` with
the echoing collaborator. -/
theorem send_data_length_witness :
    ∃ out, send_data echoDevice [false, true] [true, false] = .ok out ∧
      out.length = 2 :=
  send_data_length echoDevice [false, true] [true, false]
    ⟨fun bs => ⟨bs, rfl, rfl⟩, fun bs _ => ⟨bs, rfl, rfl⟩⟩ rfl

/-- C7: if the collaborator answers the first `k` segments and raises a
transport error `e` on segment `k`, then `send_data` returns exactly
that error (unchanged, with no partial result), and the calls actually
issued are exactly the first `k + 1` segments — no further segment is
processed and nothing is retried. -/
theorem transport_error_propagates {ε : Type} (dev : Device ε)
    (tms tdi : List Bool) (k : Nat) (hk : k < (segments tms tdi).length) (e : ε)
    (hfail : runSeg dev ((segments tms tdi).get ⟨k, hk⟩) = .error e)
    (hok : ∀ i (hi : i < k), ∃ out,
      runSeg dev ((segments tms tdi).get ⟨i, Nat.lt_trans hi hk⟩) = .ok out) :
    send_data dev tms tdi = .error e ∧
    send_calls dev tms tdi = (segments tms tdi).take (k + 1) := by
  have hpt := processTrace_fail dev (segments tms tdi) k hk e hfail hok
  have heq := send_data_eq dev tms tdi
  rw [hpt] at heq
  exact ⟨congrArg Prod.snd heq, congrArg Prod.fst heq⟩

/-- Witness for C7: a collaborator failing with error `7` on its very
first call, on `tms = [false]`, `tdi = [true]`. -/
theorem transport_error_propagates_witness :
    send_data failDevice [false] [true] = .error 7 ∧
    send_calls failDevice [false] [true] = (segments [false] [true]).take (0 + 1) :=
  transport_error_propagates failDevice [false] [true] 0 (by decide) 7 rfl
    (fun i hi => absurd hi (Nat.not_lt_zero i))

set_option linter.unusedVariables false in
/-- C8 (code bug): `set_tck_period` never delegates a frequency request.
For every positive period it raises `NameError` on the unbound name
`frequency` (the parameter of `set_frequency` is misspelled `frequncey`
at src/adapters/pyftdi.py:68 while its body reads `frequency` at line
76), before `device.set_frequency` is ever reached. -/
theorem set_tck_period_name_error (device : FreqDevice) (period : Rat)
    (h : 0 < period) :
    set_tck_period device period = .error (.nameError "frequency") :=
  rfl

/-- Witness for C8 at period 100 ns with an identity collaborator. -/
theorem set_tck_period_name_error_witness :
    set_tck_period ⟨fun f => f⟩ 100 = .error (.nameError "frequency") :=
  set_tck_period_name_error ⟨fun f => f⟩ 100 (by norm_num)

/-- C9: every emitted TMS-run segment over `[lo, hi)` has TDI constant
over its whole range (the run is cut at the first index where TDI
differs from `tdi[lo]`), so the value at the run's last index — the one
actually sent, per C5 — always equals the value at its first index: the
spec's §9 open question always agrees. -/
theorem tmsRun_tdi_constant (tms tdi : List Bool) (lo hi : Nat)
    (bits : List Bool) (v : Bool) (h : tms.length = tdi.length)
    (hmem : Segment.tmsRun lo hi bits v ∈ segments tms tdi) :
    (∀ i, lo ≤ i → i < hi → tdi.getD i false = tdi.getD lo false) ∧
    v = tdi.getD lo false := by
  have hconst := sendSegs_const tms tdi (le_of_eq h) tms.length 0 lo hi bits v hmem
  have hr := segments_mem_range tms tdi hmem
  simp only [Segment.lo, Segment.hi] at hr
  have hf := segments_from tms tdi _ hmem
  rw [SegFrom] at hf
  refine ⟨hconst, ?_⟩
  rw [hf.2.1]
  exact hconst (hi - 1) (by omega) (by omega)

/-- Witness for C9 at `tms = [true, true]`, `tdi = [true, true]`, whose
single segment is `tmsRun 0 2 [true, true] true`. -/
theorem tmsRun_tdi_constant_witness :
    (∀ i, 0 ≤ i → i < 2 →
      ([true, true] : List Bool).getD i false = ([true, true] : List Bool).getD 0 false) ∧
    true = ([true, true] : List Bool).getD 0 false :=
  tmsRun_tdi_constant [true, true] [true, true] 0 2 [true, true] true rfl (by decide)

/-- C10 (termination): the segmentation loop finishes after at most
`len(tms)` iterations — any fuel of at least `len(tms)` yields the very
same decomposition — because every emitted segment is nonempty (the
cursor strictly advances), there are at most `len(tms)` segments, and
the inner TDI-change cut position is always strictly beyond the cursor
(the bit at `head` trivially equals itself) while never overshooting
`tms0Pos`. -/
theorem segmentation_terminates (tms tdi : List Bool) (fuel : Nat)
    (h : tms.length ≤ fuel) :
    sendSegs tms tdi fuel 0 = segments tms tdi ∧
    (∀ s ∈ segments tms tdi, s.lo < s.hi) ∧
    (segments tms tdi).length ≤ tms.length ∧
    (∀ head tms0Pos, head < tms0Pos →
      head < tmsTail tms0Pos head tdi ∧ tmsTail tms0Pos head tdi ≤ tms0Pos) := by
  refine ⟨sendSegs_fuel tms tdi fuel tms.length 0 (by omega) (by omega), ?_, ?_, ?_⟩
  · intro s hs
    exact (segments_mem_range tms tdi hs).1
  · have h1 := RangeChain_length (segments_chain tms tdi)
    have h2 : (ranges (segments tms tdi)).length = (segments tms tdi).length := by
      simp [ranges]
    omega
  · intro head tms0Pos hlt
    have hb := tmsTail_bounds tms0Pos head tdi hlt
    exact ⟨hb.1, hb.2.1⟩

/-- Witness for C10 at `tms = [true]`, `tdi = [false]`, fuel 5. -/
theorem segmentation_terminates_witness :
    sendSegs [true] [false] 5 0 = segments [true] [false] ∧
    (∀ s ∈ segments [true] [false], s.lo < s.hi) ∧
    (segments [true] [false]).length ≤ 1 ∧
    (∀ head tms0Pos, head < tms0Pos →
      head < tmsTail tms0Pos head [false] ∧ tmsTail tms0Pos head [false] ≤ tms0Pos) :=
  segmentation_terminates [true] [false] 5 (by decide)

end PyFTDI
